import Mathlib

set_option maxRecDepth 4000

/-!
Shallow embedding of the wslgit translation layer (src/main.rs).

Representation choices, used consistently below:
  * Rust strings are modelled at character granularity; the workhorse
    definitions operate on `List Char`, with `String` wrappers.  Byte-level
    UTF-8 concerns (OsStr conversions that cannot fail on valid text) are
    outside the model; on ASCII data the model is byte-faithful.
  * The two filesystem probes the program performs, `Path::exists` and
    `Path::canonicalize` composed with `OsStr::to_str`, are abstracted into
    an oracle structure `FS`.  A canonicalization failure and a
    representation failure are merged into the `Option` result.
  * A Rust panic (`expect` or an out-of-bounds index) is modelled as `none`;
    functions that can panic return `Option`.
  * `std::path` Windows semantics (prefix parsing, component iteration,
    `is_absolute`, `with_extension`) are modelled from the documented
    behaviour of the Rust standard library, since the program manipulates
    `Path` values through it.
-/

/-- Filesystem oracle: `exists` models `Path::exists`, `canonicalize`
models `Path::canonicalize` followed by `OsStr::to_str` (a failure of
either gives `none`). -/
structure FS where
  pathExists : String → Bool
  canonicalize : String → Option String

/-- A separator byte of a non-verbatim Windows path: slash or backslash. -/
def isSep (c : Char) : Bool := c == '/' || c == '\\'

/-- ASCII alphabetic test, as in `u8::is_ascii_alphabetic` and the regex
class `[A-Za-z]`. -/
def isAsciiLetter (c : Char) : Bool :=
  (65 ≤ c.toNat && c.toNat ≤ 90) || (97 ≤ c.toNat && c.toNat ≤ 122)

/-- Model of `u8::to_ascii_uppercase` on a character. -/
def asciiUpper (c : Char) : Char :=
  if 97 ≤ c.toNat && c.toNat ≤ 122 then Char.ofNat (c.toNat - 32) else c

/-- Model of `str::to_lowercase` on a single ASCII character (drive
letters stored by prefix parsing are always ASCII alphabetic). -/
def asciiLower (c : Char) : Char :=
  if 65 ≤ c.toNat && c.toNat ≤ 90 then Char.ofNat (c.toNat + 32) else c

/-- The variants of `std::path::Prefix` for Windows paths. -/
inductive PfxKind where
  | Verbatim (s : List Char)
  | VerbatimUNC (server share : List Char)
  | VerbatimDisk (d : Char)
  | DeviceNS (s : List Char)
  | UNC (server share : List Char)
  | Disk (d : Char)
deriving DecidableEq, Repr

/-- `Prefix::is_verbatim`. -/
def pfxVerbatim : PfxKind → Bool
  | .Verbatim _ | .VerbatimUNC _ _ | .VerbatimDisk _ => true
  | _ => false

/-- `Prefix::has_implicit_root`: every prefix kind except a plain disk. -/
def pfxImplicitRoot : PfxKind → Bool
  | .Disk _ => false
  | _ => true

/-- The separator predicate in force: verbatim paths only treat a
backslash as separator. -/
def sepChar (vb : Bool) (c : Char) : Bool := if vb then c == '\\' else isSep c

/-- Model of `parse_prefix` from `std::sys::path::windows`: returns the
parsed prefix and the characters following it.  The exotic branches
(verbatim, device, UNC) are carried for fidelity; the program can only
translate the two disk forms. -/
def parseBack2 (rest : List Char) : Option (PfxKind × List Char) :=
  match rest with
  | '?' :: '\\' :: r2 =>
      match r2 with
      | 'U' :: 'N' :: 'C' :: '\\' :: r3 =>
          let server := r3.takeWhile (fun c => !(c == '\\'))
          let r4 := (r3.dropWhile (fun c => !(c == '\\'))).drop 1
          let share := r4.takeWhile (fun c => !(c == '\\'))
          let r5 := r4.dropWhile (fun c => !(c == '\\'))
          some (.VerbatimUNC server share, r5)
      | _ =>
          let comp := r2.takeWhile (fun c => !(c == '\\'))
          let r3 := r2.dropWhile (fun c => !(c == '\\'))
          match comp with
          | [d, ':'] =>
              if isAsciiLetter d then some (.VerbatimDisk (asciiUpper d), r3)
              else some (.Verbatim comp, r3)
          | _ => some (.Verbatim comp, r3)
  | '.' :: '\\' :: r2 =>
      let comp := r2.takeWhile (fun c => !isSep c)
      let r3 := r2.dropWhile (fun c => !isSep c)
      some (.DeviceNS comp, r3)
  | _ =>
      let server := rest.takeWhile (fun c => !isSep c)
      let r2 := (rest.dropWhile (fun c => !isSep c)).drop 1
      let share := r2.takeWhile (fun c => !isSep c)
      let r3 := r2.dropWhile (fun c => !isSep c)
      if !server.isEmpty && !share.isEmpty then some (.UNC server share, r3)
      else none

/-- Top level of `parse_prefix`: two leading backslashes select the
verbatim, device or UNC families, otherwise a disk prefix `X:` is
recognised when the first character is ASCII alphabetic. -/
def parsePfx (cs : List Char) : Option (PfxKind × List Char) :=
  match cs with
  | c1 :: c2 :: rest =>
      if c1 == '\\' && c2 == '\\' then parseBack2 rest
      else if c2 == ':' && isAsciiLetter c1 then
        some (.Disk (asciiUpper c1), rest)
      else none
  | _ => none

/-- Prefix, and the characters the component iterator walks after it. -/
def splitPfx (cs : List Char) : Option PfxKind × List Char :=
  match parsePfx cs with
  | some (p, rest) => (some p, rest)
  | none => (none, cs)

/-- A component of a Windows path, as in `std::path::Component`. -/
inductive WinComp where
  | pfx (p : PfxKind)
  | root
  | cur
  | par
  | normal (s : List Char)
deriving DecidableEq, Repr

/-- `Component::as_os_str` for the components the translation fold pushes
(cur, par and normal; the other two never reach the catch-all arm). -/
def compStr : WinComp → List Char
  | .cur => ['.']
  | .par => ['.', '.']
  | .normal s => s
  | _ => []

/-- Split on separators dropping empty runs, accumulator form so that the
definition is structural and computable by the kernel. -/
def splitSegsAux (sp : Char → Bool) : List Char → List Char → List (List Char)
  | [], cur => if cur.isEmpty then [] else [cur.reverse]
  | c :: cs, cur =>
      if sp c then
        if cur.isEmpty then splitSegsAux sp cs []
        else cur.reverse :: splitSegsAux sp cs []
      else splitSegsAux sp cs (c :: cur)

/-- The non-empty separator-delimited segments of a character list. -/
def splitSegs (sp : Char → Bool) (cs : List Char) : List (List Char) :=
  splitSegsAux sp cs []

/-- `parse_single_component`: `.` is dropped on non-verbatim paths and
kept as `CurDir` on verbatim ones; `..` is `ParentDir`. -/
def segComp (vb : Bool) (seg : List Char) : Option WinComp :=
  if seg = ['.'] then (if vb then some .cur else none)
  else if seg = ['.', '.'] then some .par
  else some (.normal seg)

/-- Model of `Path::components()` for Windows paths, in iteration order:
optional prefix, root when physically or implicitly present, an initial
`CurDir` for a relative path spelled `.`-first, then the remaining
segments. -/
def componentsOf (cs : List Char) : List WinComp :=
  let pr := splitPfx cs
  let vb := match pr.1 with | some p => pfxVerbatim p | none => false
  let sp := sepChar vb
  let physRoot := match pr.2 with | c :: _ => sp c | [] => false
  let rooted := physRoot || (match pr.1 with | some p => pfxImplicitRoot p | none => false)
  let includeCur :=
    !rooted && (match pr.2 with
      | ['.'] => true
      | '.' :: c :: _ => sp c
      | _ => false)
  let body := (splitSegs sp pr.2).filterMap (segComp vb)
  (match pr.1 with | some p => [WinComp.pfx p] | none => [])
    ++ (if rooted then [WinComp.root] else [])
    ++ (if includeCur then WinComp.cur :: body else body)

/-- `Path::is_absolute` on Windows: rooted and carrying a prefix. -/
def is_absolute (s : String) : Bool :=
  let pr := splitPfx s.data
  let vb := match pr.1 with | some p => pfxVerbatim p | none => false
  let physRoot := match pr.2 with | c :: _ => sepChar vb c | [] => false
  (physRoot || (match pr.1 with | some p => pfxImplicitRoot p | none => false))
    && pr.1.isSome

/-- `get_drive_letter` (main.rs 14-25): the two disk forms give the
lowercased letter, every other prefix gives none (the source panics at
the caller through `expect`; the panic is the overall `none` below). -/
def get_drive_letter : PfxKind → Option (List Char)
  | .VerbatimDisk d => some [asciiLower d]
  | .Disk d => some [asciiLower d]
  | _ => none

/-- `get_prefix_for_drive` (main.rs 27-30). -/
def get_prefix_for_drive (drive : List Char) : List Char :=
  ['/', 'm', 'n', 't', '/'] ++ drive

/-- One step of the accumulator in `translate_path_to_unix`: push a
separator unless the accumulator is empty or already ends with one. -/
def pushSeg (acc d : List Char) : List Char :=
  if !acc.isEmpty && !(acc.getLast? == some '/') then acc ++ '/' :: d
  else acc ++ d

/-- The component fold of `translate_path_to_unix` (main.rs 45-68);
`none` is the panic on a non-disk prefix. -/
def translate_fold : List WinComp → List Char → Option (List Char)
  | [], acc => some acc
  | WinComp.pfx p :: rest, acc =>
      match get_drive_letter p with
      | some d => translate_fold rest (acc ++ get_prefix_for_drive d)
      | none => none
  | WinComp.root :: rest, acc => translate_fold rest acc
  | comp :: rest, acc => translate_fold rest (pushSeg acc (compStr comp))

/-- Character membership, as `str::contains(char)`. -/
def containsChar : List Char → Char → Bool
  | [], _ => false
  | c :: cs, x => c == x || containsChar cs x

/-- `str::splitn(2, sep)` for a single-character separator: the part
before the first occurrence and the rest, or `none` when absent. -/
def splitFirst (sep : Char) : List Char → Option (List Char × List Char)
  | [] => none
  | c :: cs =>
      if c == sep then some ([], cs)
      else match splitFirst sep cs with
        | some (a, b) => some (c :: a, b)
        | none => none

/-- `str::starts_with("--")`. -/
def leadsWith2Dash (cs : List Char) : Bool :=
  match cs with
  | c1 :: c2 :: _ => c1 == '-' && c2 == '-'
  | _ => false

/-- The `--name=value` decomposition at the top of
`translate_path_to_unix` (main.rs 34-42): the flag part ending in `=`
and the value, or an empty flag part and the whole argument. -/
def flagSplit (argument : String) : String × String :=
  if leadsWith2Dash argument.data && containsChar argument.data '=' then
    match splitFirst '=' argument.data with
    | some (a, b) => (⟨a ++ ['=']⟩, ⟨b⟩)
    | none => ("", argument)
  else ("", argument)

/-- The translation of the value part alone: the body of the
`is_absolute || exists` branch of `translate_path_to_unix`. -/
def translate_value (fs : FS) (arg : String) : Option String :=
  if is_absolute arg || fs.pathExists arg then
    (translate_fold (componentsOf arg.data) []).map (fun w => (⟨w⟩ : String))
  else some arg

/-- `translate_path_to_unix` (main.rs 32-73).  `none` models the panics
on unsupported prefixes; a non-path argument is returned unchanged. -/
def translate_path_to_unix (fs : FS) (argument : String) : Option String :=
  let fp := flagSplit argument
  if is_absolute fp.2 || fs.pathExists fp.2 then
    (translate_fold (componentsOf fp.2.data) []).map
      (fun w => fp.1 ++ (⟨w⟩ : String))
  else some argument

/-- The whitespace class of the byte-mode regex `\S` complement:
space, tab, newline, vertical tab, form feed, carriage return. -/
def isRegexSpace (c : Char) : Bool :=
  c == ' ' || c == '\t' || c == '\n' || c == Char.ofNat 11 ||
    c == Char.ofNat 12 || c == '\r'

/-- One attempted match of the pattern `/mnt/([A-Za-z])/` at the head of
the input; returns the drive letter and the characters after the second
slash. -/
def matchMnt (cs : List Char) : Option (Char × List Char) :=
  match cs with
  | '/' :: 'm' :: 'n' :: 't' :: '/' :: d :: '/' :: rest =>
      if isAsciiLetter d then some (d, rest) else none
  | _ => none

/-- Single-pass scanner equivalent to
`replace_all` over `/mnt/(letter)(/\S*)` with template `letter:path`
(main.rs 75-82).  Fuel-indexed to stay structural; every step consumes
at least one character, so fuel equal to the length never runs out. -/
def tpwF : Nat → List Char → List Char
  | 0, cs => cs
  | _ + 1, [] => []
  | fuel + 1, c :: rest =>
      match matchMnt (c :: rest) with
      | some (d, after) =>
          d :: ':' :: '/' ::
            (after.takeWhile (fun x => !isRegexSpace x)
              ++ tpwF fuel (after.dropWhile (fun x => !isRegexSpace x)))
      | none => c :: tpwF fuel rest

/-- `translate_path_to_win` (main.rs 75-82), on text output. -/
def translate_path_to_win (s : String) : String :=
  ⟨tpwF s.data.length s.data⟩

/-- `str::replace("\n", ...)` with the four character replacement
dollar, quote, newline, quote. -/
def replaceNL : List Char → List Char
  | [] => []
  | c :: cs =>
      if c == '\n' then
        '$' :: Char.ofNat 39 :: '\n' :: Char.ofNat 39 :: replaceNL cs
      else c :: replaceNL cs

/-- `shell_escape` (main.rs 84-94): an argument containing a space is
returned wrapped in double quotes at once; only otherwise is the
newline replacement reached. -/
def shell_escape (arg : String) : String :=
  if containsChar arg.data ' ' then "\"" ++ arg ++ "\""
  else ⟨replaceNL arg.data⟩

/-- Rust `str::get(a..b)`: `some` exactly when the range is ordered and
within bounds (boundary validity is at character granularity in this
model). -/
def rustGet (cs : List Char) (a b : Nat) : Option (List Char) :=
  if a ≤ b ∧ b ≤ cs.length then some ((cs.drop a).take (b - a)) else none

/-- `unquote` (main.rs 96-101): strings starting with a double quote lose
their first and last character via a checked slice whose failure falls
back to the original string. -/
def unquote (s : String) : String :=
  match s.data with
  | '"' :: _ =>
      (match rustGet s.data 1 (s.data.length - 1) with
       | some t => (⟨t⟩ : String)
       | none => s)
  | _ => s

/-- `rsplit_file_at_dot` logic of `Path::file_stem`: the part before the
last dot, except that a name that is `..`, dotless, or dotted only at
the front is its own stem. -/
def rustFileStem (name : List Char) : List Char :=
  if name = ['.', '.'] then name
  else
    let afterR := name.reverse.takeWhile (fun c => !(c == '.'))
    if afterR.length = name.length then name
    else
      let before := name.take (name.length - afterR.length - 1)
      if before.isEmpty then name else before

/-- Backwards search for `Path::file_name`: working on the reversed
character list, strip trailing separators and (non-verbatim) `.`
components; a final `..`, a bare `.` on a verbatim path, or nothing
left means there is no file name.  Returns the name (in order) and the
reversed remainder before it.  Fuel-indexed; `length + 1` always
suffices. -/
def backNameF : Nat → (Char → Bool) → Bool → List Char →
    Option (List Char × List Char)
  | 0, _, _, _ => none
  | fuel + 1, sp, vb, r =>
      let r1 := r.dropWhile sp
      let segR := r1.takeWhile (fun c => !sp c)
      let rest := r1.dropWhile (fun c => !sp c)
      let seg := segR.reverse
      if seg.isEmpty then none
      else if seg = ['.'] then
        (if vb then none else backNameF fuel sp vb rest)
      else if seg = ['.', '.'] then none
      else some (seg, rest)

/-- Model of `Path::with_extension`: truncate the path at the end of the
file stem and append a dot and the new extension when non-empty; a path
without a file name is returned unchanged. -/
def with_extension (p : String) (ext : String) : String :=
  let pr := splitPfx p.data
  let vb := match pr.1 with | some k => pfxVerbatim k | none => false
  let sp := sepChar vb
  match backNameF (pr.2.length + 1) sp vb pr.2.reverse with
  | none => p
  | some (name, revBefore) =>
      ⟨(p.data.take (p.data.length - pr.2.length)) ++ revBefore.reverse
        ++ rustFileStem name
        ++ (if ext.data.isEmpty then [] else '.' :: ext.data)⟩

/-- The candidate paths `resolve_actual_win_path` builds, in probe
order: extensions `""`, `"CMD"`, `"EXE"` (main.rs 104-106). -/
def candidates (win_path : String) : List String :=
  [with_extension win_path "", with_extension win_path "CMD",
    with_extension win_path "EXE"]

/-- The lazy `map(println).find(exists)` pipeline (main.rs 107-111):
first existing candidate together with the lines printed, one line per
candidate probed, up to and including the hit. -/
def find_with_log (ex : String → Bool) :
    List String → Option String × List String
  | [] => (none, [])
  | c :: rest =>
      if ex c then (some c, ["path " ++ c])
      else
        let r := find_with_log ex rest
        (r.1, ("path " ++ c) :: r.2)

/-- `resolve_actual_win_path` (main.rs 103-115): first existing
candidate, canonicalized and stringified; any failure gives `none`. -/
def resolve_actual_win_path (fs : FS) (win_path : String) : Option String :=
  (find_with_log fs.pathExists (candidates win_path)).1.bind fs.canonicalize

/-- The lines `resolve_actual_win_path` prints to its own stdout. -/
def resolve_probe_log (fs : FS) (win_path : String) : List String :=
  (find_with_log fs.pathExists (candidates win_path)).2

/-- `translate_git_editor` (main.rs 117-129).  `none` models the panic
when the value has no space (the unconditional `editor_parts[1]`) and
the panics reachable inside `translate_path_to_unix`. -/
def translate_git_editor (fs : FS) (editor : String) : Option String :=
  let parts : List String :=
    match splitFirst ' ' editor.data with
    | some (a, b) => [⟨a⟩, ⟨b⟩]
    | none => [editor]
  let part0 : String := parts.headD ""
  let unquoted_editor_cmd := unquote part0
  let unix_path : Option String :=
    match resolve_actual_win_path fs unquoted_editor_cmd with
    | some actual_win_path => translate_path_to_unix fs actual_win_path
    | none => some part0
  match unix_path, parts.get? 1 with
  | some up, some p1 => some (up ++ " " ++ p1)
  | _, _ => none

/-- The output-translation allow-list (main.rs 173). -/
def TRANSLATED_CMDS : List String := ["rev-parse", "remote"]

/-- The dispatcher test (main.rs 175-176): some argument equal to some
allow-list entry. -/
def translate_output (args : List String) : Bool :=
  args.any (fun arg => TRANSLATED_CMDS.any (fun tcmd => tcmd == arg))

/-- The observable stdout of the wrapper (main.rs 178-200): captured and
rewritten for allow-listed invocations, streamed unchanged otherwise. -/
def main_output (args : List String) (out : String) : String :=
  if translate_output args then translate_path_to_win out else out

/-- The all-failing filesystem oracle: nothing exists, nothing
canonicalizes. -/
def fsEmpty : FS := { pathExists := fun _ => false, canonicalize := fun _ => none }

/-- Specification-side description of the probed candidates: every
candidate up to and including the first existing one (all of them when
none exists). -/
def specProbedCandidates (ex : String → Bool) : List String → List String
  | [] => []
  | c :: rest => if ex c then [c] else c :: specProbedCandidates ex rest

/-- Join character lists with a single separator character between
consecutive elements. -/
def joinChars (sep : Char) : List (List Char) → List Char
  | [] => []
  | [s] => s
  | s :: rest => s ++ sep :: joinChars sep rest

/-- The host-side path of claim C1: a drive letter, a colon, a
backslash, and backslash-joined suffix segments. -/
def mkWinPath (L : Char) (S : List (List Char)) : List Char :=
  L :: ':' :: '\\' :: joinChars '\\' S

/-- Segments each preceded by a slash, the shape the translation fold
produces after the mount part. -/
def slashJoin : List (List Char) → List Char
  | [] => []
  | s :: rest => '/' :: (s ++ slashJoin rest)

/-! ## Helper lemmas -/

theorem containsChar_iff (cs : List Char) (x : Char) :
    containsChar cs x = true ↔ x ∈ cs := by
  induction cs with
  | nil => simp [containsChar]
  | cons c cs ih =>
    simp only [containsChar, Bool.or_eq_true, beq_iff_eq, ih, List.mem_cons]
    constructor
    · rintro (rfl | h)
      · exact Or.inl rfl
      · exact Or.inr h
    · rintro (rfl | h)
      · exact Or.inl rfl
      · exact Or.inr h

theorem splitFirst_eq_none (sep : Char) (cs : List Char)
    (h : containsChar cs sep = false) : splitFirst sep cs = none := by
  induction cs with
  | nil => rfl
  | cons c cs ih =>
    simp only [containsChar, Bool.or_eq_false_iff] at h
    simp [splitFirst, ih h.2, h.1]

theorem splitFirst_append (sep : Char) (cs : List Char) :
    ∀ a b, splitFirst sep cs = some (a, b) → cs = a ++ sep :: b := by
  induction cs with
  | nil => intro a b h; simp [splitFirst] at h
  | cons c cs ih =>
    intro a b h
    simp only [splitFirst] at h
    split at h
    · next hc =>
      simp only [Option.some.injEq, Prod.mk.injEq] at h
      obtain ⟨rfl, rfl⟩ := h
      simp [show c = sep from by simpa using hc]
    · next hc =>
      split at h
      · next a2 b2 hsf =>
        simp only [Option.some.injEq, Prod.mk.injEq] at h
        obtain ⟨rfl, rfl⟩ := h
        rw [List.cons_append]
        exact congrArg (c :: ·) (ih a2 b2 hsf)
      · exact absurd h (by simp)

theorem splitFirst_of_contains (sep : Char) (cs : List Char)
    (h : containsChar cs sep = true) :
    ∃ a b, splitFirst sep cs = some (a, b) := by
  induction cs with
  | nil => simp [containsChar] at h
  | cons c cs ih =>
    simp only [splitFirst]
    by_cases hc : (c == sep) = true
    · rw [if_pos hc]; exact ⟨[], cs, rfl⟩
    · rw [if_neg hc]
      have hcs : containsChar cs sep = true := by
        simp only [containsChar, Bool.or_eq_true] at h
        exact h.resolve_left hc
      obtain ⟨a, b, hab⟩ := ih hcs
      rw [hab]
      exact ⟨c :: a, b, rfl⟩

/-! ## Claim C2 -/

/-- C2 counterexample: on the argument with a space and a newline,
`shell_escape` returns early with the quoted argument and never reaches
the newline replacement, so the claimed result (quotes and the
dollar-quoted newline substitution together) is not produced. -/
theorem wslgit_C2_counterexample :
    shell_escape "a b\nc" = "\"a b\nc\"" ∧
    shell_escape "a b\nc" ≠
      ⟨['"', 'a', ' ', 'b', '$', Char.ofNat 39, '\n', Char.ofNat 39, 'c', '"']⟩ := by
  decide

/-- C2 amended: for every argument containing a space (in particular one
also containing a literal newline), `shell_escape` only wraps the whole
argument in double quotes; the newline substitution is not performed on
such arguments. -/
theorem wslgit_C2 (arg : String)
    (h1 : containsChar arg.data ' ' = true)
    (_h2 : containsChar arg.data '\n' = true) :
    shell_escape arg = "\"" ++ arg ++ "\"" := by
  simp [shell_escape, h1]

/-- C2 witness. -/
theorem wslgit_C2_witness : shell_escape "a b\nc" = "\"" ++ "a b\nc" ++ "\"" :=
  wslgit_C2 "a b\nc" (by decide) (by decide)

/-! ## Claim C4 -/

/-- C4: subprocess stdout is captured and rewritten through
`translate_path_to_win` exactly when some argument token equals one of
the two allow-list entries, and is emitted unchanged otherwise. -/
theorem wslgit_C4 (args : List String) (out : String) :
    (translate_output args = true ↔
       ∃ a ∈ args, a = "rev-parse" ∨ a = "remote") ∧
    main_output args out =
      (if translate_output args then translate_path_to_win out else out) := by
  refine ⟨?_, rfl⟩
  simp only [translate_output, TRANSLATED_CMDS, List.any_eq_true,
    List.any_cons, List.any_nil, Bool.or_eq_true, Bool.or_false, beq_iff_eq]
  constructor
  · rintro ⟨a, ha, h | h⟩
    · exact ⟨a, ha, Or.inl h.symm⟩
    · exact ⟨a, ha, Or.inr h.symm⟩
  · rintro ⟨a, ha, h | h⟩
    · exact ⟨a, ha, Or.inl h.symm⟩
    · exact ⟨a, ha, Or.inr h.symm⟩

/-! ## Claim C5 -/

/-- C5: when the value part of an argument (the part after the
`--name=` flag part, or the whole argument) is neither absolute nor
existing, `translate_path_to_unix` returns the argument unchanged. -/
theorem wslgit_C5 (fs : FS) (argument : String)
    (habs : is_absolute (flagSplit argument).2 = false)
    (hex : fs.pathExists (flagSplit argument).2 = false) :
    translate_path_to_unix fs argument = some argument := by
  simp [translate_path_to_unix, habs, hex]

/-- C5 witness: the empty argument. -/
theorem wslgit_C5_witness : translate_path_to_unix fsEmpty "" = some "" :=
  wslgit_C5 fsEmpty "" (by decide) (by decide)

/-! ## Claim C7 -/

/-- C7: the resolver probes the extension candidates in the fixed order
empty, CMD, EXE; the first existing candidate is canonicalized and
stringified (so a canonicalization or representation failure there
gives `none`), and `none` is returned when no candidate exists. -/
theorem wslgit_C7 (fs : FS) (p : String) :
    (fs.pathExists (with_extension p "") = true →
       resolve_actual_win_path fs p = fs.canonicalize (with_extension p "")) ∧
    (fs.pathExists (with_extension p "") = false →
       fs.pathExists (with_extension p "CMD") = true →
       resolve_actual_win_path fs p = fs.canonicalize (with_extension p "CMD")) ∧
    (fs.pathExists (with_extension p "") = false →
       fs.pathExists (with_extension p "CMD") = false →
       fs.pathExists (with_extension p "EXE") = true →
       resolve_actual_win_path fs p = fs.canonicalize (with_extension p "EXE")) ∧
    (fs.pathExists (with_extension p "") = false →
       fs.pathExists (with_extension p "CMD") = false →
       fs.pathExists (with_extension p "EXE") = false →
       resolve_actual_win_path fs p = none) := by
  refine ⟨fun h1 => ?_, fun h1 h2 => ?_, fun h1 h2 h3 => ?_, fun h1 h2 h3 => ?_⟩
  · simp [resolve_actual_win_path, candidates, find_with_log, h1]
  · simp [resolve_actual_win_path, candidates, find_with_log, h1, h2]
  · simp [resolve_actual_win_path, candidates, find_with_log, h1, h2, h3]
  · simp [resolve_actual_win_path, candidates, find_with_log, h1, h2, h3]

/-- C7 witness: with nothing on disk every candidate fails and the
resolver reports no match. -/
theorem wslgit_C7_witness : resolve_actual_win_path fsEmpty "git" = none :=
  (wslgit_C7 fsEmpty "git").2.2.2 rfl rfl rfl

/-! ## Claim C10 -/

theorem find_with_log_snd (ex : String → Bool) (l : List String) :
    (find_with_log ex l).2 =
      (specProbedCandidates ex l).map (fun c => "path " ++ c) := by
  induction l with
  | nil => rfl
  | cons c rest ih =>
    by_cases h : ex c = true
    · simp [find_with_log, specProbedCandidates, h]
    · simp only [Bool.not_eq_true] at h
      simp [find_with_log, specProbedCandidates, h, ih]

/-- C10: each call of the resolver writes one line `path <candidate>`
for each candidate it probes, i.e. each candidate up to and including
the first existing one. -/
theorem wslgit_C10 (fs : FS) (p : String) :
    resolve_probe_log fs p =
      (specProbedCandidates fs.pathExists (candidates p)).map
        (fun c => "path " ++ c) :=
  find_with_log_snd fs.pathExists (candidates p)

/-! ## Claim C8 -/

/-- C8 counterexample: the one-character string consisting of a double
quote begins with a double quote, yet `unquote` returns it unchanged
(the checked slice `1..0` fails and the fallback fires) instead of the
claimed removal of its first and last character. -/
theorem wslgit_C8_counterexample :
    unquote "\"" = "\"" ∧
    unquote "\"" ≠ ⟨(("\"".data.drop 1).dropLast)⟩ := by
  decide

/-- C8 amended: a string of at least two characters beginning with a
double quote loses exactly its first and last character; a string not
beginning with a double quote is returned unchanged (and the
one-character quote string falls back to itself). -/
theorem wslgit_C8 (s : String) :
    (2 ≤ s.data.length → s.data.head? = some '"' →
       unquote s = ⟨(s.data.drop 1).dropLast⟩) ∧
    (s.data.head? ≠ some '"' → unquote s = s) := by
  obtain ⟨l⟩ := s
  constructor
  · intro hlen hhead
    cases l with
    | nil => simp at hhead
    | cons c cs =>
      simp only [List.head?_cons, Option.some.injEq] at hhead
      subst hhead
      simp only [List.length_cons] at hlen
      have h1 : 1 ≤ cs.length := by omega
      simp only [unquote, rustGet, List.length_cons]
      rw [if_pos (by omega)]
      simp only [List.drop_succ_cons, List.drop_zero]
      congr 1
      rw [show cs.length + 1 - 1 - 1 = cs.length - 1 from by omega]
      exact (List.dropLast_eq_take cs).symm
  · intro hne
    cases l with
    | nil => rfl
    | cons c cs =>
      simp only [List.head?_cons, ne_eq, Option.some.injEq] at hne
      simp only [unquote]
      split
      · next heq =>
        exact absurd (by injection heq) hne
      · rfl

/-- C8 witness. -/
theorem wslgit_C8_witness :
    unquote "\"ab\"" = ⟨("\"ab\"".data.drop 1).dropLast⟩ ∧ unquote "x" = "x" :=
  ⟨(wslgit_C8 "\"ab\"").1 (by decide) (by decide),
   (wslgit_C8 "x").2 (by decide)⟩

/-! ## Claim C9 -/

/-- C9: on an editor value without a space (in particular one without
any whitespace), the split yields a single part, the unconditional
access to the trailing part fails, and `translate_git_editor` produces
no result. -/
theorem wslgit_C9 (fs : FS) (editor : String)
    (h : containsChar editor.data ' ' = false) :
    translate_git_editor fs editor = none := by
  have hs := splitFirst_eq_none ' ' editor.data h
  simp only [translate_git_editor, hs]
  split
  · next heq => simp at heq
  · rfl

/-- C9 witness. -/
theorem wslgit_C9_witness : translate_git_editor fsEmpty "vim" = none :=
  wslgit_C9 fsEmpty "vim" (by decide)

/-! ## Claim C3 -/

/-- C3 counterexample: with a quoted command token that resolves to
nothing, the fallback is the token as written, quotes included, not the
unquoted token the claim describes. -/
theorem wslgit_C3_counterexample :
    translate_git_editor fsEmpty "\"noexist\" -w" = some "\"noexist\" -w" ∧
    unquote "\"noexist\"" = "noexist" ∧
    some ("\"noexist\" -w" : String) ≠ some ("noexist" ++ " " ++ "-w" : String) := by
  decide

/-- C3 amended: when the resolver finds no match for the unquoted
command token, `translate_git_editor` falls back to the command token
exactly as it appeared before unquoting, rejoined with a single space
and the verbatim trailing-arguments part. -/
theorem wslgit_C3 (fs : FS) (editor a b : String)
    (hsplit : splitFirst ' ' editor.data = some (a.data, b.data))
    (hres : resolve_actual_win_path fs (unquote a) = none) :
    translate_git_editor fs editor = some (a ++ " " ++ b) := by
  simp [translate_git_editor, hsplit, hres]

/-- C3 witness. -/
theorem wslgit_C3_witness :
    translate_git_editor fsEmpty "vi -w" = some ("vi" ++ " " ++ "-w") :=
  wslgit_C3 fsEmpty "vi -w" "vi" "-w" (by decide) (by decide)

/-! ## Claim C6 -/

/-- C6: an argument of the `--name=value` shape is translated to the
flag part, reproduced losslessly, concatenated with the translation of
the value part; in particular the flag-value example translates with
the flag part preserved. -/
theorem wslgit_C6 (fs : FS) (argument : String)
    (h1 : leadsWith2Dash argument.data = true)
    (h2 : containsChar argument.data '=' = true) :
    translate_path_to_unix fs argument
      = (translate_value fs (flagSplit argument).2).map
          (fun v => (flagSplit argument).1 ++ v) ∧
    (flagSplit argument).1 ++ (flagSplit argument).2 = argument ∧
    translate_path_to_unix fs "--file=C:\\some\\path.txt"
      = some "--file=/mnt/c/some/path.txt" := by
  obtain ⟨a, b, hab⟩ := splitFirst_of_contains '=' argument.data h2
  have hdat := splitFirst_append '=' argument.data a b hab
  have hrec : (flagSplit argument).1 ++ (flagSplit argument).2 = argument := by
    obtain ⟨l⟩ := argument
    simp only [flagSplit, h1, h2, Bool.and_self, if_true, hab]
    show (⟨(a ++ ['=']) ++ b⟩ : String) = ⟨l⟩
    simp only [String.data] at hdat
    rw [hdat]
    simp
  refine ⟨?_, hrec, ?_⟩
  · by_cases hc : (is_absolute (flagSplit argument).2
        || fs.pathExists (flagSplit argument).2) = true
    · simp only [translate_path_to_unix, translate_value, hc, if_true,
        Option.map_map]
      rfl
    · have hc' : (is_absolute (flagSplit argument).2
          || fs.pathExists (flagSplit argument).2) = false := by
        simpa using hc
      simp only [translate_path_to_unix, translate_value, hc',
        Bool.false_eq_true, if_false, Option.map_some]
      exact congrArg some hrec.symm
  · have e1 : flagSplit "--file=C:\\some\\path.txt"
        = ("--file=", "C:\\some\\path.txt") := by decide
    have e2 : is_absolute "C:\\some\\path.txt" = true := by decide
    simp only [translate_path_to_unix, e1, e2, Bool.true_or, if_true]
    decide

/-- C6 witness. -/
theorem wslgit_C6_witness :
    translate_path_to_unix fsEmpty "--file=C:\\some\\path.txt"
      = (translate_value fsEmpty (flagSplit "--file=C:\\some\\path.txt").2).map
          (fun v => (flagSplit "--file=C:\\some\\path.txt").1 ++ v) ∧
    (flagSplit "--file=C:\\some\\path.txt").1
        ++ (flagSplit "--file=C:\\some\\path.txt").2
      = "--file=C:\\some\\path.txt" ∧
    translate_path_to_unix fsEmpty "--file=C:\\some\\path.txt"
      = some "--file=/mnt/c/some/path.txt" :=
  wslgit_C6 fsEmpty "--file=C:\\some\\path.txt" (by decide) (by decide)

/-! ## Character arithmetic lemmas for C1 -/

theorem toNat_ofNat_small (n : Nat) (h : n < 128) : (Char.ofNat n).toNat = n := by
  have hv : n.isValidChar := Or.inl (by omega)
  simp [Char.ofNat, hv, Char.toNat, Char.ofNatAux, UInt32.toNat, UInt32.ofNatCore]

theorem isAsciiLetter_ranges (c : Char) (h : isAsciiLetter c = true) :
    (65 ≤ c.toNat ∧ c.toNat ≤ 90) ∨ (97 ≤ c.toNat ∧ c.toNat ≤ 122) := by
  simpa [isAsciiLetter, Bool.or_eq_true, Bool.and_eq_true,
    decide_eq_true_eq] using h

theorem toNat_asciiLower (c : Char) (h : isAsciiLetter c = true) :
    97 ≤ (asciiLower c).toNat ∧ (asciiLower c).toNat ≤ 122 := by
  rcases isAsciiLetter_ranges c h with ⟨h1, h2⟩ | ⟨h1, h2⟩
  · have hc : (65 ≤ c.toNat && c.toNat ≤ 90) = true := by
      simp only [Bool.and_eq_true, decide_eq_true_eq]; omega
    have ht : (Char.ofNat (c.toNat + 32)).toNat = c.toNat + 32 :=
      toNat_ofNat_small _ (by omega)
    simp only [asciiLower, hc, if_true, ht]
    exact ⟨by omega, by omega⟩
  · have hc : (65 ≤ c.toNat && c.toNat ≤ 90) = false := by
      simp only [Bool.and_eq_false_iff, decide_eq_false_iff_not]
      right; omega
    simp [asciiLower, hc]
    exact ⟨by omega, by omega⟩

theorem asciiLower_asciiUpper (c : Char) (h : isAsciiLetter c = true) :
    asciiLower (asciiUpper c) = asciiLower c := by
  rcases isAsciiLetter_ranges c h with ⟨h1, h2⟩ | ⟨h1, h2⟩
  · have hc : (97 ≤ c.toNat && c.toNat ≤ 122) = false := by
      simp only [Bool.and_eq_false_iff, decide_eq_false_iff_not]
      left; omega
    simp [asciiUpper, hc]
  · have hc1 : (97 ≤ c.toNat && c.toNat ≤ 122) = true := by
      simp only [Bool.and_eq_true, decide_eq_true_eq]; omega
    simp only [asciiUpper, hc1, if_true]
    have ht : (Char.ofNat (c.toNat - 32)).toNat = c.toNat - 32 :=
      toNat_ofNat_small _ (by omega)
    have hc2 : (65 ≤ (Char.ofNat (c.toNat - 32)).toNat
        && (Char.ofNat (c.toNat - 32)).toNat ≤ 90) = true := by
      simp only [ht, Bool.and_eq_true, decide_eq_true_eq]
      exact ⟨by omega, by omega⟩
    have hc3 : (65 ≤ c.toNat && c.toNat ≤ 90) = false := by
      simp only [Bool.and_eq_false_iff, decide_eq_false_iff_not]
      right; omega
    simp only [asciiLower, hc2, hc3, if_true, Bool.false_eq_true, if_false]
    rw [ht, show c.toNat - 32 + 32 = c.toNat from by omega, Char.ofNat_toNat]

theorem isAsciiLetter_asciiLower (c : Char) (h : isAsciiLetter c = true) :
    isAsciiLetter (asciiLower c) = true := by
  obtain ⟨h1, h2⟩ := toNat_asciiLower c h
  simp only [isAsciiLetter, Bool.or_eq_true, Bool.and_eq_true, decide_eq_true_eq]
  right; omega

theorem asciiLower_ne_low (c : Char) (h : isAsciiLetter c = true)
    (d : Char) (hd : d.toNat < 97) : asciiLower c ≠ d := by
  intro heq
  have := congrArg Char.toNat heq
  have hr := toNat_asciiLower c h
  omega

theorem isSep_asciiLower (c : Char) (h : isAsciiLetter c = true) :
    isSep (asciiLower c) = false := by
  simp only [isSep, Bool.or_eq_false_iff, beq_eq_false_iff_ne]
  exact ⟨asciiLower_ne_low c h '/' (by decide),
    asciiLower_ne_low c h '\\' (by decide)⟩

/-! ## Parsing and fold lemmas for C1 -/

theorem parsePfx_disk (L : Char) (hL : isAsciiLetter L = true) (T : List Char) :
    parsePfx (L :: ':' :: T) = some (.Disk (asciiUpper L), T) := by
  simp [parsePfx, hL]

theorem takeWhile_all {p : Char → Bool} (l : List Char)
    (h : ∀ a ∈ l, p a = true) : l.takeWhile p = l := by
  induction l with
  | nil => rfl
  | cons c cs ih =>
    simp only [List.takeWhile_cons, h c (List.mem_cons_self c cs), if_true]
    rw [ih (fun a ha => h a (List.mem_cons_of_mem c ha))]

theorem dropWhile_all {p : Char → Bool} (l : List Char)
    (h : ∀ a ∈ l, p a = true) : l.dropWhile p = [] := by
  induction l with
  | nil => rfl
  | cons c cs ih =>
    simp only [List.dropWhile_cons, h c (List.mem_cons_self c cs), if_true]
    exact ih (fun a ha => h a (List.mem_cons_of_mem c ha))

theorem splitSegsAux_seg (sp : Char → Bool) (seg : List Char) :
    ∀ (tail cur : List Char), (∀ c ∈ seg, sp c = false) →
      splitSegsAux sp (seg ++ tail) cur
        = splitSegsAux sp tail (seg.reverse ++ cur) := by
  induction seg with
  | nil => intro tail cur _; simp
  | cons c cs ih =>
    intro tail cur hseg
    have hc : sp c = false := hseg c (List.mem_cons_self c cs)
    simp only [List.cons_append, splitSegsAux, hc, Bool.false_eq_true, if_false]
    rw [List.append_eq]
    rw [ih tail (c :: cur) (fun a ha => hseg a (List.mem_cons_of_mem c ha))]
    simp

theorem splitSegsAux_join (sp : Char → Bool) (sc : Char) (hsc : sp sc = true)
    (S : List (List Char))
    (hS : ∀ seg ∈ S, seg ≠ [] ∧ ∀ c ∈ seg, sp c = false) :
    splitSegsAux sp (joinChars sc S) [] = S := by
  induction S with
  | nil => rfl
  | cons s rest ih =>
    obtain ⟨hne, hchars⟩ := hS s (List.mem_cons_self s rest)
    have hrest : ∀ seg ∈ rest, seg ≠ [] ∧ ∀ c ∈ seg, sp c = false :=
      fun seg hm => hS seg (List.mem_cons_of_mem s hm)
    cases rest with
    | nil =>
      show splitSegsAux sp (joinChars sc [s]) [] = [s]
      have : joinChars sc [s] = s ++ [] := by simp [joinChars]
      rw [this, splitSegsAux_seg sp s [] [] hchars]
      simp only [splitSegsAux, List.append_nil]
      rw [if_neg (by simpa using hne)]
      simp
    | cons t rest2 =>
      have hj : joinChars sc (s :: t :: rest2)
          = s ++ sc :: joinChars sc (t :: rest2) := by
        simp [joinChars]
      rw [hj, splitSegsAux_seg sp s _ [] hchars]
      simp only [splitSegsAux, hsc, if_true, List.append_nil]
      rw [if_neg (by simpa using hne)]
      simp [ih hrest]

theorem filterMap_segComp (S : List (List Char))
    (hS : ∀ seg ∈ S, seg ≠ ['.']) :
    S.filterMap (segComp false)
      = S.map (fun seg =>
          if seg = ['.', '.'] then WinComp.par else WinComp.normal seg) := by
  induction S with
  | nil => rfl
  | cons s rest ih =>
    have hs : s ≠ ['.'] := hS s (List.mem_cons_self s rest)
    have hrest := fun seg hm => hS seg (List.mem_cons_of_mem s hm)
    by_cases hpar : s = ['.', '.']
    · simp [segComp, hpar, ih hrest]
    · simp [segComp, hs, hpar, ih hrest]

theorem componentsOf_mkWinPath (L : Char) (S : List (List Char))
    (hL : isAsciiLetter L = true)
    (hS : ∀ seg ∈ S, seg ≠ [] ∧ seg ≠ ['.'] ∧ ∀ c ∈ seg, isSep c = false) :
    componentsOf (mkWinPath L S)
      = WinComp.pfx (.Disk (asciiUpper L)) :: WinComp.root ::
          S.map (fun seg =>
            if seg = ['.', '.'] then WinComp.par else WinComp.normal seg) := by
  have hsplit : splitPfx (mkWinPath L S)
      = (some (.Disk (asciiUpper L)), '\\' :: joinChars '\\' S) := by
    simp [splitPfx, mkWinPath, parsePfx_disk L hL]
  have hsegs : splitSegs (sepChar false) ('\\' :: joinChars '\\' S) = S := by
    show splitSegsAux (sepChar false) ('\\' :: joinChars '\\' S) [] = S
    have hbs : sepChar false '\\' = true := by decide
    simp only [splitSegsAux, hbs, if_true, List.isEmpty_nil]
    exact splitSegsAux_join (sepChar false) '\\' hbs S
      (fun seg hm => ⟨(hS seg hm).1,
        fun c hc => by
          have := (hS seg hm).2.2 c hc
          simpa [sepChar] using this⟩)
  simp only [componentsOf, hsplit, pfxVerbatim, pfxImplicitRoot]
  have hbs2 : sepChar false '\\' = true := by decide
  simp only [hbs2, Bool.true_or, Bool.or_true, Bool.not_true, Bool.false_and,
    if_true, Bool.false_eq_true, if_false]
  rw [hsegs, filterMap_segComp S (fun seg hm => (hS seg hm).2.1)]
  simp

theorem getLast?_mem_of_ne_nil (l : List Char) (h : l ≠ []) :
    ∃ c ∈ l, l.getLast? = some c := by
  induction l with
  | nil => exact absurd rfl h
  | cons a as ih =>
    cases as with
    | nil => exact ⟨a, by simp, by simp⟩
    | cons b bs =>
      obtain ⟨c, hc1, hc2⟩ := ih (by simp)
      exact ⟨c, List.mem_cons_of_mem a hc1,
        by rw [List.getLast?_cons_cons]; exact hc2⟩

theorem translate_fold_segs (S : List (List Char)) :
    ∀ acc : List Char, acc ≠ [] → acc.getLast? ≠ some '/' →
      (∀ seg ∈ S, seg ≠ [] ∧ ∀ c ∈ seg, isSep c = false) →
      translate_fold
        (S.map (fun seg =>
          if seg = ['.', '.'] then WinComp.par else WinComp.normal seg)) acc
        = some (acc ++ slashJoin S) := by
  induction S with
  | nil => intro acc _ _ _; simp [translate_fold, slashJoin]
  | cons s rest ih =>
    intro acc hne hlast hS
    obtain ⟨hsne, hschars⟩ := hS s (List.mem_cons_self s rest)
    have hrest := fun seg hm => hS seg (List.mem_cons_of_mem s hm)
    have hcomp : compStr
        (if s = ['.', '.'] then WinComp.par else WinComp.normal s) = s := by
      by_cases hp : s = ['.', '.'] <;> simp [compStr, hp]
    have hstep : translate_fold
        ((if s = ['.', '.'] then WinComp.par else WinComp.normal s) ::
          rest.map (fun seg =>
            if seg = ['.', '.'] then WinComp.par else WinComp.normal seg)) acc
        = translate_fold
            (rest.map (fun seg =>
              if seg = ['.', '.'] then WinComp.par else WinComp.normal seg))
            (pushSeg acc s) := by
      by_cases hp : s = ['.', '.']
      · simp [hp, translate_fold, compStr]
      · simp [hp, translate_fold, compStr]
    have hcond : (!acc.isEmpty && !(acc.getLast? == some '/')) = true := by
      simp only [Bool.and_eq_true, Bool.not_eq_true']
      refine ⟨?_, beq_eq_false_iff_ne.mpr hlast⟩
      cases acc with
      | nil => exact absurd rfl hne
      | cons _ _ => rfl
    have hpush : pushSeg acc s = acc ++ '/' :: s := by
      rw [pushSeg, if_pos hcond]
    obtain ⟨c, hcmem, hclast⟩ := getLast?_mem_of_ne_nil s hsne
    have hlast2 : (acc ++ '/' :: s).getLast? ≠ some '/' := by
      rw [List.getLast?_append_of_ne_nil acc (by simp)]
      have : ('/' :: s).getLast? = some c := by
        cases s with
        | nil => exact absurd rfl hsne
        | cons x xs => rw [List.getLast?_cons_cons]; exact hclast
      rw [this]
      intro heq
      have hcslash : c = '/' := by simpa using heq
      have := hschars c hcmem
      rw [hcslash] at this
      simp [isSep] at this
    rw [List.map_cons, hstep, hpush,
      ih (acc ++ '/' :: s) (by simp) hlast2 hrest]
    simp [slashJoin]

theorem slashJoin_eq (S : List (List Char)) (h : S ≠ []) :
    slashJoin S = '/' :: joinChars '/' S := by
  induction S with
  | nil => exact absurd rfl h
  | cons s rest ih =>
    cases rest with
    | nil => simp [slashJoin, joinChars]
    | cons t rest2 =>
      have hj : joinChars '/' (s :: t :: rest2)
          = s ++ '/' :: joinChars '/' (t :: rest2) := by simp [joinChars]
      rw [slashJoin, ih (by simp), hj]

theorem mem_joinChars (sc : Char) (S : List (List Char)) (c : Char)
    (h : c ∈ joinChars sc S) : c = sc ∨ ∃ seg ∈ S, c ∈ seg := by
  induction S with
  | nil => simp [joinChars] at h
  | cons s rest ih =>
    cases rest with
    | nil =>
      simp only [joinChars] at h
      exact Or.inr ⟨s, List.mem_cons_self s [], h⟩
    | cons t rest2 =>
      rw [show joinChars sc (s :: t :: rest2)
          = s ++ sc :: joinChars sc (t :: rest2) from by simp [joinChars]] at h
      rcases List.mem_append.mp h with hs | hrest
      · exact Or.inr ⟨s, List.mem_cons_self s _, hs⟩
      · rcases List.mem_cons.mp hrest with rfl | hj
        · exact Or.inl rfl
        · rcases ih hj with hsc | ⟨seg, hm, hc⟩
          · exact Or.inl hsc
          · exact Or.inr ⟨seg, List.mem_cons_of_mem s hm, hc⟩

theorem tpwF_nil (n : Nat) : tpwF n [] = [] := by
  cases n <;> rfl

theorem tpwF_mnt (l : Char) (tail : List Char) (n : Nat)
    (hl : isAsciiLetter l = true)
    (htail : ∀ c ∈ tail, isRegexSpace c = false) :
    tpwF (n + 1) ('/' :: 'm' :: 'n' :: 't' :: '/' :: l :: '/' :: tail)
      = l :: ':' :: '/' :: tail := by
  have hm : matchMnt ('/' :: 'm' :: 'n' :: 't' :: '/' :: l :: '/' :: tail)
      = some (l, tail) := by
    simp [matchMnt, hl]
  simp only [tpwF, hm]
  rw [takeWhile_all tail (fun a ha => by simp [htail a ha]),
    dropWhile_all tail (fun a ha => by simp [htail a ha]),
    tpwF_nil]
  simp

/-! ## Claim C1 -/

/-- C1 counterexample: for the host path with an uppercase drive letter
and a suffix containing a space followed by a backslashed `mnt` run,
the round trip scrambles the output (a second spurious replacement
fires after the whitespace) and lowercases the drive letter, so the
original drive-letter form is not recovered modulo separator
normalization. -/
theorem wslgit_C1_counterexample :
    (translate_path_to_unix fsEmpty "C:\\a b\\mnt\\d\\x").map translate_path_to_win
      = some "c:/a bd:/x" ∧
    some ("c:/a bd:/x" : String) ≠ some ("C:/a b/mnt/d/x" : String) := by
  decide

/-- C1 amended: for every ASCII drive letter and every non-empty suffix
of backslash-separated segments, each non-empty, different from the dot
segment, and free of separator and whitespace characters, the round
trip of `translate_path_to_unix` followed by `translate_path_to_win`
yields the drive-letter form with the letter lowercased and the
separators normalized to forward slashes. -/
theorem wslgit_C1 (fs : FS) (L : Char) (S : List (List Char))
    (hL : isAsciiLetter L = true) (hS0 : S ≠ [])
    (hS : ∀ seg ∈ S, seg ≠ [] ∧ seg ≠ ['.'] ∧
      ∀ c ∈ seg, isSep c = false ∧ isRegexSpace c = false) :
    (translate_path_to_unix fs ⟨mkWinPath L S⟩).map translate_path_to_win
      = some ⟨asciiLower L :: ':' :: '/' :: joinChars '/' S⟩ := by
  have hSsep : ∀ seg ∈ S, seg ≠ [] ∧ seg ≠ ['.'] ∧ ∀ c ∈ seg, isSep c = false :=
    fun seg hm =>
      ⟨(hS seg hm).1, (hS seg hm).2.1, fun c hc => ((hS seg hm).2.2 c hc).1⟩
  have hSsegs : ∀ seg ∈ S, seg ≠ [] ∧ ∀ c ∈ seg, isSep c = false :=
    fun seg hm => ⟨(hS seg hm).1, fun c hc => ((hS seg hm).2.2 c hc).1⟩
  have hld : leadsWith2Dash (mkWinPath L S) = false := by
    simp [leadsWith2Dash, mkWinPath]
  have hflag : flagSplit ⟨mkWinPath L S⟩ = ("", ⟨mkWinPath L S⟩) := by
    simp [flagSplit, hld]
  have hsplit : splitPfx (mkWinPath L S)
      = (some (.Disk (asciiUpper L)), '\\' :: joinChars '\\' S) := by
    simp [splitPfx, mkWinPath, parsePfx_disk L hL]
  have habs : is_absolute ⟨mkWinPath L S⟩ = true := by
    simp only [is_absolute, hsplit]
    simp [sepChar, isSep]
  have hcomp := componentsOf_mkWinPath L S hL hSsep
  have hlne : asciiLower L ≠ '/' := asciiLower_ne_low L hL '/' (by decide)
  have hfold : translate_fold (componentsOf (mkWinPath L S)) []
      = some ((['/', 'm', 'n', 't', '/'] ++ [asciiLower L]) ++ slashJoin S) := by
    rw [hcomp]
    simp only [translate_fold, get_drive_letter, asciiLower_asciiUpper L hL,
      get_prefix_for_drive, List.nil_append]
    exact translate_fold_segs S (['/', 'm', 'n', 't', '/'] ++ [asciiLower L])
      (by simp)
      (by
        rw [List.getLast?_append_of_ne_nil _ (by simp)]
        simpa using hlne)
      hSsegs
  have hmain : translate_path_to_unix fs ⟨mkWinPath L S⟩
      = some ⟨(['/', 'm', 'n', 't', '/'] ++ [asciiLower L]) ++ slashJoin S⟩ := by
    simp only [translate_path_to_unix, hflag, habs, Bool.true_or, if_true]
    rw [hfold]
    rfl
  have htail : ∀ c ∈ joinChars '/' S, isRegexSpace c = false := by
    intro c hc
    rcases mem_joinChars '/' S c hc with rfl | ⟨seg, hm, hcs⟩
    · decide
    · exact ((hS seg hm).2.2 c hcs).2
  have hw : (['/', 'm', 'n', 't', '/'] ++ [asciiLower L]) ++ slashJoin S
      = '/' :: 'm' :: 'n' :: 't' :: '/' :: asciiLower L :: '/' ::
          joinChars '/' S := by
    rw [slashJoin_eq S hS0]; simp
  have hdone : translate_path_to_win
      ⟨(['/', 'm', 'n', 't', '/'] ++ [asciiLower L]) ++ slashJoin S⟩
      = ⟨asciiLower L :: ':' :: '/' :: joinChars '/' S⟩ := by
    show (⟨tpwF ((['/', 'm', 'n', 't', '/'] ++ [asciiLower L]) ++
        slashJoin S).length ((['/', 'm', 'n', 't', '/'] ++ [asciiLower L]) ++
          slashJoin S)⟩ : String) = _
    rw [hw]
    rw [show ('/' :: 'm' :: 'n' :: 't' :: '/' :: asciiLower L :: '/' ::
        joinChars '/' S).length = (joinChars '/' S).length + 6 + 1 from by
          simp only [List.length_cons]]
    rw [tpwF_mnt (asciiLower L) (joinChars '/' S) ((joinChars '/' S).length + 6)
      (isAsciiLetter_asciiLower L hL) htail]
  rw [hmain, Option.map_some', hdone]

/-- C1 witness: the drive letter d with suffix segments test and
file.txt round-trips to the lowercased forward-slash form. -/
theorem wslgit_C1_witness :
    (translate_path_to_unix fsEmpty
        ⟨mkWinPath 'd' [['t', 'e', 's', 't'],
          ['f', 'i', 'l', 'e', '.', 't', 'x', 't']]⟩).map translate_path_to_win
      = some ⟨asciiLower 'd' :: ':' :: '/' ::
          joinChars '/' [['t', 'e', 's', 't'],
            ['f', 'i', 'l', 'e', '.', 't', 'x', 't']]⟩ :=
  wslgit_C1 fsEmpty 'd' [['t', 'e', 's', 't'], ['f', 'i', 'l', 'e', '.', 't', 'x', 't']]
    (by decide) (by decide)
    (by
      intro seg hm
      fin_cases hm <;> refine ⟨by decide, by decide, ?_⟩ <;>
        intro c hc <;> fin_cases hc <;> exact ⟨by decide, by decide⟩)
